import Mathlib

/-!
Shallow embedding of the waitlist engine of `src/sistemaRestaurante.py`
(class `RestaurantWaitlist`).  The linked list headed by `self.head` is
modelled as a Lean `List` (head of the list = head of the queue); the
Python dict `self.tables` is modelled as an association list in insertion
order, with integer counts (so that non-negativity is a provable invariant
rather than a typing artifact).  The `(bool, message)` returns of
`call_next_table` and `cancel_reservation` are modelled as inductive
results carrying exactly the data interpolated into the Python messages.
-/

/-- One node of the linked list (`class Node`): a pending client entry. -/
structure ClientEntry where
  client_name : String
  party_size : Int
  reservation_time : String
deriving Repr, DecidableEq

/-- State of `class RestaurantWaitlist`: the queue (linked list from
`self.head`, front first), the table inventory `self.tables` as an
association list capacity → free count, and `self.wait_time_per_table`. -/
structure RestaurantWaitlist where
  queue : List ClientEntry
  tables : List (Int × Int)
  wait_time_per_table : Int
deriving Repr, DecidableEq

/-- `__init__`: empty queue, `self.tables = {2: 5, 4: 3, 6: 2}`,
`self.wait_time_per_table = 30`.  The constructor takes no parameters. -/
def RestaurantWaitlist.init : RestaurantWaitlist :=
  { queue := [], tables := [(2, 5), (4, 3), (6, 2)], wait_time_per_table := 30 }

/-- `add_client`: append a new node at the tail of the linked list. -/
def add_client (s : RestaurantWaitlist) (client_name : String) (party_size : Int)
    (reservation_time : String) : RestaurantWaitlist :=
  { s with queue := s.queue ++ [⟨client_name, party_size, reservation_time⟩] }

/-- `sorted(self.tables.keys())`: the capacity keys in ascending order. -/
def sortedKeys (tables : List (Int × Int)) : List Int :=
  List.insertionSort (fun a b => a ≤ b) (tables.map Prod.fst)

/-- Dict membership `table_size in self.tables`. -/
def hasKey (tables : List (Int × Int)) (k : Int) : Bool :=
  (tables.find? (fun p => p.fst == k)).isSome

/-- Dict read `self.tables[k]` (first binding of `k`; the engine only reads
keys that are present, so the `0` default is never observed). -/
def lookupTable (tables : List (Int × Int)) (k : Int) : Int :=
  match tables.find? (fun p => p.fst == k) with
  | some p => p.snd
  | none => 0

/-- Dict write `self.tables[k] = f(self.tables[k])`. -/
def updateTable (tables : List (Int × Int)) (k : Int) (f : Int → Int) :
    List (Int × Int) :=
  tables.map (fun p => if p.fst == k then (p.fst, f p.snd) else p)

/-- `_find_suitable_table`: iterate the sorted capacities, return the first
one `size` with `party_size <= size`, else `None`. -/
def find_suitable_table (s : RestaurantWaitlist) (party_size : Int) : Option Int :=
  (sortedKeys s.tables).find? (fun size => decide (party_size ≤ size))

/-- Result of `call_next_table`, one constructor per distinct Python return:
`(True, "Llamando a {name} para una mesa de {size} personas.")`,
`(False, "No hay clientes en la lista de espera.")`, and
`(False, "No hay mesas disponibles para {name} (grupo de {size}).")`. -/
inductive CallResult where
  | success (client_name : String) (table_size : Int)
  | emptyQueue
  | noTable (client_name : String) (party_size : Int)
deriving Repr, DecidableEq

/-- `call_next_table`.  The Python guard is `if table_size and
self.tables[table_size] > 0`: `table_size` is truthy when it is neither
`None` nor `0`, hence the explicit `size ≠ 0` conjunct. -/
def call_next_table (s : RestaurantWaitlist) : CallResult × RestaurantWaitlist :=
  match s.queue with
  | [] => (CallResult.emptyQueue, s)
  | current :: rest =>
    match find_suitable_table s current.party_size with
    | some size =>
      if size ≠ 0 ∧ 0 < lookupTable s.tables size then
        (CallResult.success current.client_name size,
          { s with queue := rest, tables := updateTable s.tables size (fun c => c - 1) })
      else
        (CallResult.noTable current.client_name current.party_size, s)
    | none => (CallResult.noTable current.client_name current.party_size, s)

/-- One element of the snapshot returned by `get_waitlist`: the dict
`{'name': ..., 'party_size': ..., 'time': ...}` built for each node. -/
structure SnapshotEntry where
  name : String
  party_size : Int
  time : String
deriving Repr, DecidableEq

/-- `get_waitlist`: traverse the list front to back, building a fresh list
of fresh dicts from the node fields.  The method reads the state and
assigns to nothing, so its embedding returns the entries alone. -/
def get_waitlist (s : RestaurantWaitlist) : List SnapshotEntry :=
  s.queue.map (fun c => ⟨c.client_name, c.party_size, c.reservation_time⟩)

/-- Result of `cancel_reservation`, one constructor per distinct Python
return: `(True, "Reservación de {name} cancelada.")`,
`(False, "La lista de espera está vacía.")`, and
`(False, "No se encontró a {name} en la lista de espera.")`. -/
inductive CancelResult where
  | cancelled (client_name : String)
  | emptyList
  | notFound (client_name : String)
deriving Repr, DecidableEq

/-- The splice performed by `cancel_reservation`: drop the first node whose
`client_name` matches, keeping every other node in order; `none` when no
node matches. -/
def removeFirstByName (client_name : String) : List ClientEntry → Option (List ClientEntry)
  | [] => none
  | c :: cs =>
    if c.client_name = client_name then some cs
    else
      match removeFirstByName client_name cs with
      | some cs2 => some (c :: cs2)
      | none => none

/-- `cancel_reservation`: empty list is its own early return; otherwise the
head is special-cased and the `while` loop splices out the first later
match, which together remove the first matching node overall. -/
def cancel_reservation (s : RestaurantWaitlist) (client_name : String) :
    CancelResult × RestaurantWaitlist :=
  match s.queue with
  | [] => (CancelResult.emptyList, s)
  | _ :: _ =>
    match removeFirstByName client_name s.queue with
    | some q => (CancelResult.cancelled client_name, { s with queue := q })
    | none => (CancelResult.notFound client_name, s)

/-- The counting loop of `estimate_wait_time`: how many queued entries have
`party_size` at most the queried size. -/
def waitingCount (s : RestaurantWaitlist) (party_size : Int) : Int :=
  ((s.queue.filter (fun c => decide (c.party_size ≤ party_size))).length : Int)

/-- `estimate_wait_time`.  The Python guard is `if not table_size or
self.tables[table_size] == 0`: `not table_size` is true when
`_find_suitable_table` returned `None` or `0`. -/
def estimate_wait_time (s : RestaurantWaitlist) (party_size : Int) : Int :=
  let count : Int := waitingCount s party_size
  let wait_time : Int :=
    match find_suitable_table s party_size with
    | some size =>
      if size ≠ 0 ∧ lookupTable s.tables size ≠ 0 then
        (count - lookupTable s.tables size) * s.wait_time_per_table
      else
        count * s.wait_time_per_table
    | none => count * s.wait_time_per_table
  max 0 wait_time

/-- `free_table`: if `table_size in self.tables`, increment its count and
return `True`; otherwise return `False` without touching the state. -/
def free_table (s : RestaurantWaitlist) (table_size : Int) : Bool × RestaurantWaitlist :=
  if hasKey s.tables table_size then
    (true, { s with tables := updateTable s.tables table_size (fun c => c + 1) })
  else
    (false, s)

/-- One engine operation, for reachability statements. -/
inductive Op where
  | add (client_name : String) (party_size : Int) (reservation_time : String)
  | callNext
  | cancel (client_name : String)
  | free (table_size : Int)
deriving Repr, DecidableEq

/-- State after one operation (results discarded). -/
def applyOp (s : RestaurantWaitlist) : Op → RestaurantWaitlist
  | Op.add n p t => add_client s n p t
  | Op.callNext => (call_next_table s).2
  | Op.cancel n => (cancel_reservation s n).2
  | Op.free k => (free_table s k).2

/-- State after a sequence of operations. -/
def runOps (s : RestaurantWaitlist) (ops : List Op) : RestaurantWaitlist :=
  ops.foldl applyOp s

/-- A state is reachable when some operation sequence produces it from the
freshly constructed engine. -/
def Reachable (s : RestaurantWaitlist) : Prop :=
  ∃ ops : List Op, runOps RestaurantWaitlist.init ops = s

/-- The name carried by a successful `call_next_table` result. -/
def served : CallResult → Option String
  | CallResult.success n _ => some n
  | _ => none

/-- Call `call_next_table` `n` times, collecting the results in order. -/
def callNtimes : Nat → RestaurantWaitlist → List CallResult × RestaurantWaitlist
  | 0, s => ([], s)
  | n + 1, s =>
    let r := call_next_table s
    let rs := callNtimes n r.2
    (r.1 :: rs.1, rs.2)

/-- Add a batch of clients in order. -/
def addAll (s : RestaurantWaitlist) (cs : List ClientEntry) : RestaurantWaitlist :=
  cs.foldl (fun t c => add_client t c.client_name c.party_size c.reservation_time) s

/-! ### Helper lemmas about the table association list -/

theorem lookupTable_cons (p : Int × Int) (rest : List (Int × Int)) (k : Int) :
    lookupTable (p :: rest) k = if p.fst = k then p.snd else lookupTable rest k := by
  by_cases h : p.fst = k
  · rw [if_pos h]
    unfold lookupTable
    rw [List.find?_cons_of_pos _ (by simpa using h)]
  · rw [if_neg h]
    unfold lookupTable
    rw [List.find?_cons_of_neg _ (by simpa using h)]

theorem updateTable_cons (p : Int × Int) (rest : List (Int × Int)) (k : Int) (f : Int → Int) :
    updateTable (p :: rest) k f
      = (if p.fst = k then (p.fst, f p.snd) else p) :: updateTable rest k f := by
  by_cases h : p.fst = k
  · simp [updateTable, h]
  · simp [updateTable, h]

theorem hasKey_iff_mem (t : List (Int × Int)) (k : Int) :
    hasKey t k = true ↔ k ∈ t.map Prod.fst := by
  simp only [hasKey, Option.isSome_iff_exists, List.mem_map]
  constructor
  · rintro ⟨p, hp⟩
    exact ⟨p, List.mem_of_find?_eq_some hp, by simpa using List.find?_some hp⟩
  · rintro ⟨p, hp, hk⟩
    rcases Option.isSome_iff_exists.1
      ((List.find?_isSome (p := fun q => q.fst == k)).2 ⟨p, hp, by simpa using hk⟩) with ⟨q, hq⟩
    exact ⟨q, hq⟩

theorem lookup_mem (t : List (Int × Int)) (k : Int) (h : k ∈ t.map Prod.fst) :
    ∃ p ∈ t, p.fst = k ∧ lookupTable t k = p.snd := by
  have hs : (t.find? (fun q => q.fst == k)).isSome = true := by
    rcases List.mem_map.1 h with ⟨p, hp, hk⟩
    exact (List.find?_isSome).2 ⟨p, hp, by simpa using hk⟩
  rcases Option.isSome_iff_exists.1 hs with ⟨q, hq⟩
  refine ⟨q, List.mem_of_find?_eq_some hq, by simpa using List.find?_some hq, ?_⟩
  simp [lookupTable, hq]

theorem updateTable_keys (t : List (Int × Int)) (k : Int) (f : Int → Int) :
    (updateTable t k f).map Prod.fst = t.map Prod.fst := by
  induction t with
  | nil => rfl
  | cons p rest ih =>
    rw [updateTable_cons, List.map_cons, List.map_cons, ih]
    by_cases h : p.fst = k
    · rw [if_pos h]
    · rw [if_neg h]

theorem lookupTable_update_self (t : List (Int × Int)) (k : Int) (f : Int → Int)
    (h : k ∈ t.map Prod.fst) :
    lookupTable (updateTable t k f) k = f (lookupTable t k) := by
  induction t with
  | nil => simp at h
  | cons p rest ih =>
    rw [updateTable_cons]
    by_cases hp : p.fst = k
    · rw [if_pos hp, lookupTable_cons, lookupTable_cons, if_pos hp, if_pos hp]
    · rw [if_neg hp, lookupTable_cons, lookupTable_cons, if_neg hp, if_neg hp]
      refine ih ?_
      rcases List.mem_map.1 h with ⟨q, hq, hk⟩
      rcases List.mem_cons.1 hq with hq | hq
      · exact absurd (hq ▸ hk) hp
      · exact List.mem_map.2 ⟨q, hq, hk⟩

theorem lookupTable_update_other (t : List (Int × Int)) (k : Int) (f : Int → Int)
    (j : Int) (h : j ≠ k) :
    lookupTable (updateTable t k f) j = lookupTable t j := by
  induction t with
  | nil => rfl
  | cons p rest ih =>
    rw [updateTable_cons]
    by_cases hp : p.fst = k
    · have hpj : ¬ p.fst = j := fun hpj => h (by rw [← hpj, hp])
      rw [if_pos hp]
      simp only [lookupTable_cons]
      simp [hpj, ih]
    · rw [if_neg hp]
      simp only [lookupTable_cons]
      by_cases hpj : p.fst = j
      · simp [hpj]
      · simp [hpj, ih]

theorem find?_key_of_nodup (t : List (Int × Int)) (hnd : (t.map Prod.fst).Nodup)
    (p : Int × Int) (hp : p ∈ t) (k : Int) (hk : p.fst = k) :
    t.find? (fun q => q.fst == k) = some p := by
  induction t with
  | nil => simp at hp
  | cons p0 rest ih =>
    rw [List.map_cons, List.nodup_cons] at hnd
    rcases List.mem_cons.1 hp with hp0 | hp0
    · subst hp0
      rw [List.find?_cons_of_pos _ (by simpa using hk)]
    · have hne : ¬ p0.fst = k := by
        intro he
        exact hnd.1 (he ▸ hk ▸ List.mem_map.2 ⟨p, hp0, rfl⟩)
      rw [List.find?_cons_of_neg _ (by simpa using hne)]
      exact ih hnd.2 hp0

theorem lookup_of_mem_nodup (t : List (Int × Int)) (hnd : (t.map Prod.fst).Nodup)
    (p : Int × Int) (hp : p ∈ t) :
    lookupTable t p.fst = p.snd := by
  simp [lookupTable, find?_key_of_nodup t hnd p hp p.fst rfl]

/-! ### Helper lemmas about `_find_suitable_table` -/

theorem sortedKeys_pairwise (t : List (Int × Int)) :
    (sortedKeys t).Pairwise (fun a b => a ≤ b) :=
  List.sorted_insertionSort (fun a b => a ≤ b) (t.map Prod.fst)

theorem mem_sortedKeys (t : List (Int × Int)) (k : Int) :
    k ∈ sortedKeys t ↔ k ∈ t.map Prod.fst :=
  (List.perm_insertionSort (fun a b => a ≤ b) (t.map Prod.fst)).mem_iff

theorem find?_sorted_min (ps : Int) :
    ∀ l : List Int, l.Pairwise (fun a b => a ≤ b) →
      ∀ c, l.find? (fun k => decide (ps ≤ k)) = some c →
        ∀ k ∈ l, ps ≤ k → c ≤ k := by
  intro l
  induction l with
  | nil => intro _ c hc; simp at hc
  | cons a t ih =>
    intro hpw c hc k hk hpk
    rcases List.pairwise_cons.1 hpw with ⟨ha, ht⟩
    by_cases hpa : ps ≤ a
    · have hac : a = c := by
        have h2 := List.find?_cons_of_pos (p := fun k => decide (ps ≤ k)) t (by simpa using hpa)
        rw [h2] at hc
        exact Option.some.inj hc
      subst hac
      rcases List.mem_cons.1 hk with hk | hk
      · exact le_of_eq hk.symm
      · exact ha k hk
    · have hc2 : t.find? (fun k => decide (ps ≤ k)) = some c := by
        have h2 := List.find?_cons_of_neg (p := fun k => decide (ps ≤ k)) t (by simpa using hpa)
        rw [h2] at hc
        exact hc
      rcases List.mem_cons.1 hk with hk | hk
      · exact absurd (hk ▸ hpk) hpa
      · exact ih ht c hc2 k hk hpk

theorem find_suitable_none_iff (s : RestaurantWaitlist) (ps : Int) :
    find_suitable_table s ps = none ↔ ∀ k ∈ s.tables.map Prod.fst, ¬ ps ≤ k := by
  simp only [find_suitable_table, List.find?_eq_none, decide_eq_true_eq]
  constructor
  · intro h k hk; exact h k ((mem_sortedKeys s.tables k).2 hk)
  · intro h k hk; exact h k ((mem_sortedKeys s.tables k).1 hk)

theorem find_suitable_some (s : RestaurantWaitlist) (ps c : Int)
    (h : find_suitable_table s ps = some c) :
    c ∈ s.tables.map Prod.fst ∧ ps ≤ c ∧
      ∀ k ∈ s.tables.map Prod.fst, ps ≤ k → c ≤ k := by
  refine ⟨(mem_sortedKeys s.tables c).1 (List.mem_of_find?_eq_some h),
    by simpa using List.find?_some h, ?_⟩
  intro k hk hpk
  exact find?_sorted_min ps (sortedKeys s.tables) (sortedKeys_pairwise s.tables) c h
    k ((mem_sortedKeys s.tables k).2 hk) hpk

theorem find_suitable_min_eq (s : RestaurantWaitlist) (ps c : Int)
    (hmem : c ∈ s.tables.map Prod.fst) (hge : ps ≤ c)
    (hmin : ∀ k ∈ s.tables.map Prod.fst, ps ≤ k → c ≤ k) :
    find_suitable_table s ps = some c := by
  cases hfind : find_suitable_table s ps with
  | none => exact absurd hge ((find_suitable_none_iff s ps).1 hfind c hmem)
  | some c0 =>
    rcases find_suitable_some s ps c0 hfind with ⟨hm0, hge0, hmin0⟩
    rw [le_antisymm (hmin0 c hmem hge) (hmin c0 hm0 hge0)]

/-! ### Case equations for `call_next_table` and `cancel_reservation` -/

theorem call_next_empty_case (s : RestaurantWaitlist) (h : s.queue = []) :
    call_next_table s = (CallResult.emptyQueue, s) := by
  simp [call_next_table, h]

theorem call_next_success_case (s : RestaurantWaitlist) (e : ClientEntry)
    (rest : List ClientEntry) (size : Int) (hq : s.queue = e :: rest)
    (hf : find_suitable_table s e.party_size = some size)
    (hcond : size ≠ 0 ∧ 0 < lookupTable s.tables size) :
    call_next_table s = (CallResult.success e.client_name size,
      { s with queue := rest, tables := updateTable s.tables size (fun c => c - 1) }) := by
  simp [call_next_table, hq, hf, hcond.1, hcond.2]

theorem call_next_noTable_none_case (s : RestaurantWaitlist) (e : ClientEntry)
    (rest : List ClientEntry) (hq : s.queue = e :: rest)
    (hf : find_suitable_table s e.party_size = none) :
    call_next_table s = (CallResult.noTable e.client_name e.party_size, s) := by
  simp [call_next_table, hq, hf]

theorem call_next_noTable_blocked_case (s : RestaurantWaitlist) (e : ClientEntry)
    (rest : List ClientEntry) (size : Int) (hq : s.queue = e :: rest)
    (hf : find_suitable_table s e.party_size = some size)
    (hcond : ¬ (size ≠ 0 ∧ 0 < lookupTable s.tables size)) :
    call_next_table s = (CallResult.noTable e.client_name e.party_size, s) := by
  simp only [call_next_table, hq, hf]
  rw [if_neg hcond]

theorem cancel_tables_eq (s : RestaurantWaitlist) (n : String) :
    (cancel_reservation s n).2.tables = s.tables := by
  unfold cancel_reservation
  cases s.queue with
  | nil => rfl
  | cons c cs =>
    cases removeFirstByName n (c :: cs) <;> rfl

/-! ### Lemmas about `removeFirstByName` -/

theorem removeFirst_none_iff (n : String) (l : List ClientEntry) :
    removeFirstByName n l = none ↔ ∀ e ∈ l, e.client_name ≠ n := by
  induction l with
  | nil => simp [removeFirstByName]
  | cons c cs ih =>
    by_cases hc : c.client_name = n
    · simp [removeFirstByName, hc]
    · constructor
      · intro h e he
        rcases List.mem_cons.1 he with he | he
        · exact he ▸ hc
        · refine (ih.1 ?_) e he
          by_contra hnone
          rcases Option.ne_none_iff_exists.1 hnone with ⟨l2, hl2⟩
          simp [removeFirstByName, hc, ← hl2] at h
      · intro h
        have h2 : removeFirstByName n cs = none :=
          ih.2 (fun e he => h e (List.mem_cons_of_mem c he))
        simp [removeFirstByName, hc, h2]

theorem removeFirst_split (n : String) :
    ∀ (pre : List ClientEntry) (e : ClientEntry) (post : List ClientEntry),
      (∀ x ∈ pre, x.client_name ≠ n) → e.client_name = n →
      removeFirstByName n (pre ++ e :: post) = some (pre ++ post) := by
  intro pre
  induction pre with
  | nil =>
    intro e post _ he
    simp [removeFirstByName, he]
  | cons c cs ih =>
    intro e post hpre he
    have hc : c.client_name ≠ n := hpre c (List.mem_cons_self c cs)
    have h2 := ih e post (fun x hx => hpre x (List.mem_cons_of_mem c hx)) he
    simp [removeFirstByName, hc, h2]

/-! ### The reachability invariant on the inventory -/

/-- Invariant of every reachable state: the capacity keys are exactly the
hardcoded `[2, 4, 6]` of the constructor, and every free count is
non-negative. -/
def TablesInv (s : RestaurantWaitlist) : Prop :=
  s.tables.map Prod.fst = [2, 4, 6] ∧ ∀ p ∈ s.tables, 0 ≤ p.snd

theorem tablesInv_init : TablesInv RestaurantWaitlist.init := by
  refine ⟨rfl, ?_⟩
  intro p hp
  fin_cases hp <;> decide

theorem tablesInv_applyOp (s : RestaurantWaitlist) (op : Op) (h : TablesInv s) :
    TablesInv (applyOp s op) := by
  cases op with
  | add n p t => exact h
  | cancel n =>
    refine ⟨?_, ?_⟩
    · rw [applyOp, cancel_tables_eq]; exact h.1
    · rw [applyOp, cancel_tables_eq]; exact h.2
  | free k =>
    rw [applyOp, free_table]
    by_cases hk : hasKey s.tables k
    · rw [if_pos hk]
      refine ⟨by rw [updateTable_keys]; exact h.1, ?_⟩
      intro q hq
      rcases List.mem_map.1 hq with ⟨p, hp, hpq⟩
      by_cases hpk : p.fst = k
      · have : q = (p.fst, p.snd + 1) := by
          rw [← hpq]; simp [hpk]
        rw [this]
        have := h.2 p hp
        omega
      · have : q = p := by rw [← hpq]; simp [hpk]
        rw [this]; exact h.2 p hp
    · rw [if_neg hk]; exact h
  | callNext =>
    rw [applyOp]
    cases hq : s.queue with
    | nil => rw [call_next_empty_case s hq]; exact h
    | cons e rest =>
      cases hf : find_suitable_table s e.party_size with
      | none => rw [call_next_noTable_none_case s e rest hq hf]; exact h
      | some size =>
        by_cases hcond : size ≠ 0 ∧ 0 < lookupTable s.tables size
        · rw [call_next_success_case s e rest size hq hf hcond]
          refine ⟨by rw [updateTable_keys]; exact h.1, ?_⟩
          intro q hquq
          rcases List.mem_map.1 hquq with ⟨p, hp, hpq⟩
          have hnd : (s.tables.map Prod.fst).Nodup := by rw [h.1]; decide
          by_cases hpk : p.fst = size
          · have hq2 : q = (p.fst, p.snd - 1) := by rw [← hpq]; simp [hpk]
            have hlook : lookupTable s.tables size = p.snd := by
              rw [← hpk]; exact lookup_of_mem_nodup s.tables hnd p hp
            rw [hq2]
            have := hcond.2
            rw [hlook] at this
            simp only
            omega
          · have hq2 : q = p := by rw [← hpq]; simp [hpk]
            rw [hq2]; exact h.2 p hp
        · rw [call_next_noTable_blocked_case s e rest size hq hf hcond]; exact h

theorem tablesInv_runOps (ops : List Op) :
    ∀ s : RestaurantWaitlist, TablesInv s → TablesInv (runOps s ops) := by
  induction ops with
  | nil => intro s h; exact h
  | cons op rest ih =>
    intro s h
    exact ih (applyOp s op) (tablesInv_applyOp s op h)

theorem tablesInv_reachable (s : RestaurantWaitlist) (h : Reachable s) : TablesInv s := by
  rcases h with ⟨ops, hops⟩
  rw [← hops]
  exact tablesInv_runOps ops RestaurantWaitlist.init tablesInv_init

/-! ### FIFO helpers -/

theorem addAll_state (cs : List ClientEntry) :
    ∀ s : RestaurantWaitlist,
      (addAll s cs).queue = s.queue ++ cs ∧ (addAll s cs).tables = s.tables ∧
        (addAll s cs).wait_time_per_table = s.wait_time_per_table := by
  induction cs with
  | nil => intro s; simp [addAll]
  | cons c rest ih =>
    intro s
    have h := ih (add_client s c.client_name c.party_size c.reservation_time)
    refine ⟨?_, h.2.1, h.2.2⟩
    rw [show addAll s (c :: rest)
        = addAll (add_client s c.client_name c.party_size c.reservation_time) rest from rfl,
      h.1]
    simp [add_client]

theorem callNtimes_cons (n : Nat) (s : RestaurantWaitlist) :
    (callNtimes (n + 1) s).1
      = (call_next_table s).1 :: (callNtimes n (call_next_table s).2).1 := rfl

theorem fifo_aux (n : Nat) :
    ∀ s : RestaurantWaitlist,
      (∀ r ∈ (callNtimes n s).1, (served r).isSome = true) →
      (callNtimes n s).1.map served = (s.queue.take n).map (fun c => some c.client_name) := by
  induction n with
  | zero => intro s _; simp [callNtimes]
  | succ n ih =>
    intro s hsucc
    have hhead : (served (call_next_table s).1).isSome = true := by
      refine hsucc (call_next_table s).1 ?_
      rw [callNtimes_cons]
      exact List.mem_cons_self _ _
    cases hq : s.queue with
    | nil =>
      rw [call_next_empty_case s hq] at hhead
      simp [served] at hhead
    | cons e rest =>
      cases hf : find_suitable_table s e.party_size with
      | none =>
        rw [call_next_noTable_none_case s e rest hq hf] at hhead
        simp [served] at hhead
      | some size =>
        by_cases hcond : size ≠ 0 ∧ 0 < lookupTable s.tables size
        · have hstep := call_next_success_case s e rest size hq hf hcond
          have htail := ih (call_next_table s).2 (by
            intro r hr
            refine hsucc r ?_
            rw [callNtimes_cons]
            exact List.mem_cons_of_mem _ hr)
          rw [callNtimes_cons, List.map_cons, htail, hstep]
          simp [served]
        · rw [call_next_noTable_blocked_case s e rest size hq hf hcond] at hhead
          simp [served] at hhead

/-! ### Claim theorems -/

/-- C10: `add_client` performs no validation: for every name (empty
included), every integer party size (zero and negatives included) and every
time string, the call succeeds, appends exactly one entry with those field
values at the tail of the queue, and leaves the inventory and the turnover
constant unchanged. -/
theorem addClient_no_validation_appends (s : RestaurantWaitlist) (n : String)
    (p : Int) (t : String) :
    (add_client s n p t).queue = s.queue ++ [⟨n, p, t⟩] ∧
    (add_client s n p t).queue.length = s.queue.length + 1 ∧
    (add_client s n p t).tables = s.tables ∧
    (add_client s n p t).wait_time_per_table = s.wait_time_per_table := by
  refine ⟨rfl, by simp [add_client], rfl, rfl⟩

/-- C9: `get_waitlist` returns one snapshot entry per queued entry, in queue
order (head first), carrying that entry's name, party size and requested
time; it takes the state as input and returns only the fresh snapshot list,
mutating neither queue nor inventory. -/
theorem getWaitlist_order_and_fields (s : RestaurantWaitlist) :
    (get_waitlist s).length = s.queue.length ∧
    ∀ i : Nat, (get_waitlist s)[i]?
      = (s.queue[i]?).map (fun c => ⟨c.client_name, c.party_size, c.reservation_time⟩) := by
  refine ⟨by simp [get_waitlist], fun i => by simp [get_waitlist]⟩

/-- C7: `free_table k` returns `True` and increments capacity `k`'s free
count by exactly 1 (leaving every other capacity's count, the queue and the
key set unchanged) when `k` is a configured capacity, and returns `False`
with the state untouched otherwise; the increment is unconditional, so no
upper bound is enforced. -/
theorem freeTable_increment_or_noop (s : RestaurantWaitlist) (k : Int) :
    (hasKey s.tables k = true →
      free_table s k = (true, { s with tables := updateTable s.tables k (fun c => c + 1) }) ∧
      lookupTable (free_table s k).2.tables k = lookupTable s.tables k + 1 ∧
      (∀ j : Int, j ≠ k → lookupTable (free_table s k).2.tables j = lookupTable s.tables j) ∧
      (free_table s k).2.queue = s.queue ∧
      (free_table s k).2.tables.map Prod.fst = s.tables.map Prod.fst) ∧
    (hasKey s.tables k = false → free_table s k = (false, s)) := by
  constructor
  · intro hk
    have hmem := (hasKey_iff_mem s.tables k).1 hk
    have heq : free_table s k
        = (true, { s with tables := updateTable s.tables k (fun c => c + 1) }) := by
      simp [free_table, hk]
    have htab : (free_table s k).2.tables = updateTable s.tables k (fun c => c + 1) := by
      rw [heq]
    have hq2 : (free_table s k).2.queue = s.queue := by
      rw [heq]
    refine ⟨heq, ?_, ?_, hq2, ?_⟩
    · rw [htab]; exact lookupTable_update_self s.tables k _ hmem
    · intro j hj; rw [htab]; exact lookupTable_update_other s.tables k _ j hj
    · rw [htab]; exact updateTable_keys s.tables k _
  · intro hk; simp [free_table, hk]

/-- C7 witness: freeing a table of capacity 2 on the fresh engine succeeds
and raises its count from the provisioned 5 to 6. -/
theorem freeTable_increment_or_noop_witness :
    hasKey RestaurantWaitlist.init.tables 2 = true ∧
    lookupTable (free_table RestaurantWaitlist.init 2).2.tables 2 = 6 := by
  have h := (freeTable_increment_or_noop RestaurantWaitlist.init 2).1 (by decide)
  refine ⟨by decide, ?_⟩
  rw [h.2.1]
  decide

/-- C3: after adding any batch of clients to the fresh engine, if the first
`n` calls of `call_next_table` all succeed, then their results serve
exactly the first `n` added clients, in arrival order. -/
theorem fifo_service_order (cs : List ClientEntry) (n : Nat)
    (hsucc : ∀ r ∈ (callNtimes n (addAll RestaurantWaitlist.init cs)).1,
      (served r).isSome = true) :
    ((callNtimes n (addAll RestaurantWaitlist.init cs)).1).map served
      = (cs.take n).map (fun c => some c.client_name) := by
  have h := fifo_aux n (addAll RestaurantWaitlist.init cs) hsucc
  rw [h, (addAll_state cs RestaurantWaitlist.init).1]
  rfl

/-- C3 witness: adding Ana then Bob and calling twice serves Ana first and
Bob second. -/
theorem fifo_service_order_witness :
    ((callNtimes 2 (addAll RestaurantWaitlist.init
        [⟨"Ana", 2, "19:00"⟩, ⟨"Bob", 4, "19:15"⟩])).1).map served
      = [some "Ana", some "Bob"] := by
  exact fifo_service_order [⟨"Ana", 2, "19:00"⟩, ⟨"Bob", 4, "19:15"⟩] 2 (by decide)

/-- C4 counterexample: on an empty queue `cancel_reservation` does not
return the not-found result; it takes the dedicated empty-list early return,
a failure distinct from `notFound` (the Python messages differ: "La lista de
espera está vacía." versus "No se encontró a Zed en la lista de espera."). -/
theorem cancel_empty_queue_distinct_result :
    (cancel_reservation RestaurantWaitlist.init "Zed").1 = CancelResult.emptyList ∧
    (cancel_reservation RestaurantWaitlist.init "Zed").1 ≠ CancelResult.notFound "Zed" := by
  exact ⟨rfl, by decide⟩

/-- C4 (amended): `cancel_reservation` removes exactly the first entry (in
head-to-tail order) whose name matches, preserving the relative order of
the remaining entries, and returns success; on a non-empty queue with no
match it returns `notFound` with the state unchanged; on an empty queue it
returns the distinct empty-list failure (not `notFound`), state unchanged;
with duplicate names only the first occurrence is removed. -/
theorem cancelReservation_first_match (s : RestaurantWaitlist) (n : String) :
    (s.queue = [] → cancel_reservation s n = (CancelResult.emptyList, s)) ∧
    (s.queue ≠ [] → (∀ e ∈ s.queue, e.client_name ≠ n) →
      cancel_reservation s n = (CancelResult.notFound n, s)) ∧
    (∀ pre e post, s.queue = pre ++ e :: post → e.client_name = n →
      (∀ x ∈ pre, x.client_name ≠ n) →
      cancel_reservation s n = (CancelResult.cancelled n, { s with queue := pre ++ post })) := by
  refine ⟨?_, ?_, ?_⟩
  · intro h
    simp [cancel_reservation, h]
  · intro hne hall
    have hnone := (removeFirst_none_iff n s.queue).2 hall
    cases hq : s.queue with
    | nil => exact absurd hq hne
    | cons c cs =>
      rw [hq] at hnone
      simp [cancel_reservation, hq, hnone]
  · intro pre e post hsplit he hpre
    have hsome : removeFirstByName n s.queue = some (pre ++ post) := by
      rw [hsplit]; exact removeFirst_split n pre e post hpre he
    cases hq : s.queue with
    | nil => rw [hq] at hsplit; simp at hsplit
    | cons c cs =>
      rw [hq] at hsome
      simp [cancel_reservation, hq, hsome]

/-- A concrete three-client state used to witness the cancellation claim. -/
def stateABC : RestaurantWaitlist :=
  ⟨[⟨"A", 2, "18:00"⟩, ⟨"B", 4, "18:30"⟩, ⟨"C", 2, "19:00"⟩], [(2, 5), (4, 3), (6, 2)], 30⟩

/-- C4 witness: cancelling "B" in the queue [A, B, C] removes exactly B and
keeps A before C. -/
theorem cancelReservation_first_match_witness :
    cancel_reservation stateABC "B"
      = (CancelResult.cancelled "B",
          (⟨[⟨"A", 2, "18:00"⟩, ⟨"C", 2, "19:00"⟩], [(2, 5), (4, 3), (6, 2)], 30⟩
            : RestaurantWaitlist)) := by
  exact (cancelReservation_first_match stateABC "B").2.2
    [⟨"A", 2, "18:00"⟩] ⟨"B", 4, "18:30"⟩ [⟨"C", 2, "19:00"⟩] rfl rfl (by decide)

/-- C8 counterexample: the constructor takes no capacity parameters and
always produces the hardcoded inventory {2: 5, 4: 3, 6: 2}; in particular
no constructed engine has capacity class 3, refuting "the engine accepts
any positive-integer capacity set supplied at construction" at the set
{3}. -/
theorem constructor_capacities_fixed :
    RestaurantWaitlist.init.tables = [(2, 5), (4, 3), (6, 2)] ∧
    (3 : Int) ∉ RestaurantWaitlist.init.tables.map Prod.fst := by
  exact ⟨rfl, by decide⟩

/-- C8 (amended): construction is not configurable: the constructor takes
no arguments and hardcodes capacities {2, 4, 6} (counts 5, 3, 2), and every
state reachable by engine operations keeps exactly those capacity classes;
the set {2, 4, 6} lives in the engine, not in the presentation layer. -/
theorem capacities_hardcoded (s : RestaurantWaitlist) (h : Reachable s) :
    s.tables.map Prod.fst = [2, 4, 6] :=
  (tablesInv_reachable s h).1

/-- C8 witness: after freeing a table on the fresh engine the capacity
classes are still exactly [2, 4, 6]. -/
theorem capacities_hardcoded_witness :
    (runOps RestaurantWaitlist.init [Op.free 2]).tables.map Prod.fst = [2, 4, 6] :=
  capacities_hardcoded _ ⟨[Op.free 2], rfl⟩

/-- C5: in every reachable state every capacity's free count is
non-negative; table counts are changed only by `call_next_table` (which on
success decrements the assigned capacity by 1) and by `free_table` (which
increments a configured capacity by 1): `add_client` and
`cancel_reservation` never touch the inventory, and a failing
`call_next_table` leaves the whole state unchanged. -/
theorem inventory_nonnegative :
    (∀ s : RestaurantWaitlist, Reachable s → ∀ p ∈ s.tables, 0 ≤ p.snd) ∧
    (∀ (s : RestaurantWaitlist) (n : String) (p : Int) (t : String),
      (add_client s n p t).tables = s.tables) ∧
    (∀ (s : RestaurantWaitlist) (n : String), (cancel_reservation s n).2.tables = s.tables) ∧
    (∀ s : RestaurantWaitlist, (∀ n c, (call_next_table s).1 ≠ CallResult.success n c) →
      (call_next_table s).2 = s) ∧
    (∀ (s : RestaurantWaitlist) (n : String) (c : Int),
      (call_next_table s).1 = CallResult.success n c →
      (call_next_table s).2.tables = updateTable s.tables c (fun x => x - 1)) ∧
    (∀ (s : RestaurantWaitlist) (k : Int),
      (free_table s k).2.tables
        = if hasKey s.tables k then updateTable s.tables k (fun x => x + 1) else s.tables) := by
  refine ⟨fun s h => (tablesInv_reachable s h).2, fun _ _ _ _ => rfl,
    fun s n => cancel_tables_eq s n, ?_, ?_, ?_⟩
  · intro s hfail
    cases hq : s.queue with
    | nil => rw [call_next_empty_case s hq]
    | cons e rest =>
      cases hf : find_suitable_table s e.party_size with
      | none => rw [call_next_noTable_none_case s e rest hq hf]
      | some size =>
        by_cases hcond : size ≠ 0 ∧ 0 < lookupTable s.tables size
        · have hres : (call_next_table s).1 = CallResult.success e.client_name size := by
            rw [call_next_success_case s e rest size hq hf hcond]
          exact absurd hres (hfail e.client_name size)
        · rw [call_next_noTable_blocked_case s e rest size hq hf hcond]
  · intro s n c hsucc
    cases hq : s.queue with
    | nil =>
      rw [call_next_empty_case s hq] at hsucc
      simp at hsucc
    | cons e rest =>
      cases hf : find_suitable_table s e.party_size with
      | none =>
        rw [call_next_noTable_none_case s e rest hq hf] at hsucc
        simp at hsucc
      | some size =>
        by_cases hcond : size ≠ 0 ∧ 0 < lookupTable s.tables size
        · have heq := call_next_success_case s e rest size hq hf hcond
          rw [heq] at hsucc
          simp only [CallResult.success.injEq] at hsucc
          rw [heq, ← hsucc.2]
        · rw [call_next_noTable_blocked_case s e rest size hq hf hcond] at hsucc
          simp at hsucc
  · intro s k
    by_cases hk : hasKey s.tables k
    · simp [free_table, hk]
    · simp [free_table, hk]

/-- C5 witness: after adding Ana (party of 2) and seating her, capacity 2's
count has become 4, which is indeed non-negative. -/
theorem inventory_nonnegative_witness :
    ((2 : Int), (4 : Int)) ∈
      (runOps RestaurantWaitlist.init [Op.add "Ana" 2 "19:00", Op.callNext]).tables ∧
    (0 : Int) ≤ (((2 : Int), (4 : Int)) : Int × Int).snd := by
  refine ⟨by decide, ?_⟩
  exact inventory_nonnegative.1 _ ⟨[Op.add "Ana" 2 "19:00", Op.callNext], rfl⟩ _ (by decide)

/-- C1: when the queue is non-empty and `c` is the smallest configured
capacity that can hold the head's party (and it has a free table),
`call_next_table` returns success with the head's name and exactly `c`,
removes exactly the head (the rest of the queue survives in order),
decrements `c`'s free count by exactly 1 and leaves every other capacity's
count and the capacity key set unchanged.  The positivity hypothesis is the
spec's data-model constraint that capacities are positive integers. -/
theorem callNextTable_best_fit (s : RestaurantWaitlist) (e : ClientEntry)
    (rest : List ClientEntry) (c : Int)
    (hq : s.queue = e :: rest)
    (hpos : ∀ k ∈ s.tables.map Prod.fst, 0 < k)
    (hmem : c ∈ s.tables.map Prod.fst)
    (hge : e.party_size ≤ c)
    (hmin : ∀ k ∈ s.tables.map Prod.fst, e.party_size ≤ k → c ≤ k)
    (hfree : 0 < lookupTable s.tables c) :
    (call_next_table s).1 = CallResult.success e.client_name c ∧
    (call_next_table s).2.queue = rest ∧
    lookupTable (call_next_table s).2.tables c = lookupTable s.tables c - 1 ∧
    (∀ j : Int, j ≠ c → lookupTable (call_next_table s).2.tables j = lookupTable s.tables j) ∧
    (call_next_table s).2.tables.map Prod.fst = s.tables.map Prod.fst := by
  have hf : find_suitable_table s e.party_size = some c :=
    find_suitable_min_eq s e.party_size c hmem hge hmin
  have hc0 : c ≠ 0 := ne_of_gt (hpos c hmem)
  have heq := call_next_success_case s e rest c hq hf ⟨hc0, hfree⟩
  have htab : (call_next_table s).2.tables = updateTable s.tables c (fun x => x - 1) := by
    rw [heq]
  have hres : (call_next_table s).1 = CallResult.success e.client_name c := by
    rw [heq]
  have hqueue : (call_next_table s).2.queue = rest := by
    rw [heq]
  refine ⟨hres, hqueue, ?_, ?_, ?_⟩
  · rw [htab]; exact lookupTable_update_self s.tables c _ hmem
  · intro j hj; rw [htab]; exact lookupTable_update_other s.tables c _ j hj
  · rw [htab]; exact updateTable_keys s.tables c _

/-- A concrete one-client state used to witness the best-fit claim. -/
def stateAna3 : RestaurantWaitlist :=
  ⟨[⟨"Ana", 3, "20:00"⟩], [(2, 5), (4, 3), (6, 2)], 30⟩

/-- C1 witness: with a party of 3 at the head, the engine assigns the
smallest sufficient capacity 4 (not 2, not 6) and pops the queue. -/
theorem callNextTable_best_fit_witness :
    (call_next_table stateAna3).1 = CallResult.success "Ana" 4 ∧
    (call_next_table stateAna3).2.queue = [] ∧
    lookupTable (call_next_table stateAna3).2.tables 4 = lookupTable stateAna3.tables 4 - 1 := by
  have h := callNextTable_best_fit stateAna3 ⟨"Ana", 3, "20:00"⟩ [] 4 rfl
    (by decide) (by decide) (by decide) (by decide) (by decide)
  exact ⟨h.1, h.2.1, h.2.2.1⟩

/-- Head-only policy of `call_next_table`: the result depends only on the
head entry and the inventory, never on the entries behind the head. -/
theorem call_next_head_only (s : RestaurantWaitlist) (e : ClientEntry)
    (r1 r2 : List ClientEntry) :
    (call_next_table { s with queue := e :: r1 }).1
      = (call_next_table { s with queue := e :: r2 }).1 := by
  cases hf : find_suitable_table { s with queue := e :: r1 } e.party_size with
  | none =>
    have hf2 : find_suitable_table { s with queue := e :: r2 } e.party_size = none := hf
    rw [call_next_noTable_none_case _ e r1 rfl hf, call_next_noTable_none_case _ e r2 rfl hf2]
  | some size =>
    have hf2 : find_suitable_table { s with queue := e :: r2 } e.party_size = some size := hf
    by_cases hcond : size ≠ 0 ∧ 0 < lookupTable s.tables size
    · have hc1 : size ≠ 0 ∧ 0 < lookupTable ({ s with queue := e :: r1 } :
        RestaurantWaitlist).tables size := hcond
      have hc2 : size ≠ 0 ∧ 0 < lookupTable ({ s with queue := e :: r2 } :
        RestaurantWaitlist).tables size := hcond
      rw [call_next_success_case _ e r1 size rfl hf hc1,
        call_next_success_case _ e r2 size rfl hf2 hc2]
    · have hc1 : ¬ (size ≠ 0 ∧ 0 < lookupTable ({ s with queue := e :: r1 } :
        RestaurantWaitlist).tables size) := hcond
      have hc2 : ¬ (size ≠ 0 ∧ 0 < lookupTable ({ s with queue := e :: r2 } :
        RestaurantWaitlist).tables size) := hcond
      rw [call_next_noTable_blocked_case _ e r1 size rfl hf hc1,
        call_next_noTable_blocked_case _ e r2 size rfl hf2 hc2]

/-- C2: `call_next_table` fails with the empty-queue result iff the queue
is empty; with a head entry it fails with the no-table result iff either no
configured capacity fits the head's party or the smallest fitting capacity
has free count 0; the decision never looks past the head (same head and
inventory give the same result whatever follows), and every failure leaves
the entire state unchanged.  The hypotheses are the spec's data-model
constraints: positive capacities, non-negative counts. -/
theorem callNextTable_failure_cases (s : RestaurantWaitlist)
    (hpos : ∀ k ∈ s.tables.map Prod.fst, 0 < k)
    (hnn : ∀ p ∈ s.tables, 0 ≤ p.snd) :
    ((call_next_table s).1 = CallResult.emptyQueue ↔ s.queue = []) ∧
    (∀ e rest, s.queue = e :: rest →
      ((call_next_table s).1 = CallResult.noTable e.client_name e.party_size ↔
        (∀ k ∈ s.tables.map Prod.fst, ¬ e.party_size ≤ k) ∨
        (∃ c, c ∈ s.tables.map Prod.fst ∧ e.party_size ≤ c ∧
          (∀ k ∈ s.tables.map Prod.fst, e.party_size ≤ k → c ≤ k) ∧
          lookupTable s.tables c = 0))) ∧
    (∀ (e : ClientEntry) (r1 r2 : List ClientEntry),
      (call_next_table { s with queue := e :: r1 }).1
        = (call_next_table { s with queue := e :: r2 }).1) ∧
    ((∀ n c, (call_next_table s).1 ≠ CallResult.success n c) → (call_next_table s).2 = s) := by
  refine ⟨?_, ?_, fun e r1 r2 => call_next_head_only s e r1 r2, ?_⟩
  · constructor
    · intro h
      cases hq : s.queue with
      | nil => rfl
      | cons e rest =>
        cases hf : find_suitable_table s e.party_size with
        | none =>
          rw [call_next_noTable_none_case s e rest hq hf] at h
          simp at h
        | some size =>
          by_cases hcond : size ≠ 0 ∧ 0 < lookupTable s.tables size
          · rw [call_next_success_case s e rest size hq hf hcond] at h
            simp at h
          · rw [call_next_noTable_blocked_case s e rest size hq hf hcond] at h
            simp at h
    · intro h
      rw [call_next_empty_case s h]
  · intro e rest hq
    constructor
    · intro h
      cases hf : find_suitable_table s e.party_size with
      | none =>
        exact Or.inl ((find_suitable_none_iff s e.party_size).1 hf)
      | some size =>
        by_cases hcond : size ≠ 0 ∧ 0 < lookupTable s.tables size
        · rw [call_next_success_case s e rest size hq hf hcond] at h
          simp at h
        · rcases find_suitable_some s e.party_size size hf with ⟨hm, hge, hmin⟩
          refine Or.inr ⟨size, hm, hge, hmin, ?_⟩
          have hsz : size ≠ 0 := ne_of_gt (hpos size hm)
          have hng : ¬ 0 < lookupTable s.tables size := fun hgt => hcond ⟨hsz, hgt⟩
          rcases lookup_mem s.tables size hm with ⟨p, hp, _, hlk⟩
          have hpn := hnn p hp
          rw [hlk] at hng ⊢
          omega
    · intro h
      rcases h with hnone | ⟨c, hm, hge, hmin, hzero⟩
      · rw [call_next_noTable_none_case s e rest hq
          ((find_suitable_none_iff s e.party_size).2 hnone)]
      · have hf := find_suitable_min_eq s e.party_size c hm hge hmin
        have hcond : ¬ (c ≠ 0 ∧ 0 < lookupTable s.tables c) := by
          rintro ⟨_, hgt⟩
          rw [hzero] at hgt
          exact lt_irrefl 0 hgt
        rw [call_next_noTable_blocked_case s e rest c hq hf hcond]
  · intro hfail
    cases hq : s.queue with
    | nil => rw [call_next_empty_case s hq]
    | cons e rest =>
      cases hf : find_suitable_table s e.party_size with
      | none => rw [call_next_noTable_none_case s e rest hq hf]
      | some size =>
        by_cases hcond : size ≠ 0 ∧ 0 < lookupTable s.tables size
        · have hres : (call_next_table s).1 = CallResult.success e.client_name size := by
            rw [call_next_success_case s e rest size hq hf hcond]
          exact absurd hres (hfail e.client_name size)
        · rw [call_next_noTable_blocked_case s e rest size hq hf hcond]

/-- C2 witness: on the fresh engine (empty queue) the call fails with the
empty-queue result. -/
theorem callNextTable_failure_cases_witness :
    (call_next_table RestaurantWaitlist.init).1 = CallResult.emptyQueue :=
  (callNextTable_failure_cases RestaurantWaitlist.init (by decide) (by decide)).1.mpr rfl

/-- C6: `estimate_wait_time p` is always non-negative; with `count` the
number of queued entries whose party size is at most `p`: when no
configured capacity fits `p` the estimate is `count * wait_time_per_table`,
and when `c` is the smallest fitting capacity the estimate is
`count * wait_time_per_table` if `c`'s free count is 0 and
`max 0 ((count - freeCount c) * wait_time_per_table)` otherwise.  The
function only reads the state (its embedding returns an integer and no
state).  The hypotheses are the spec's data-model constraints: positive
capacities and the non-negative turnover constant (30 in every reachable
state). -/
theorem estimateWaitTime_formula (s : RestaurantWaitlist) (p : Int)
    (hpos : ∀ k ∈ s.tables.map Prod.fst, 0 < k)
    (ht : 0 ≤ s.wait_time_per_table) :
    0 ≤ estimate_wait_time s p ∧
    ((∀ k ∈ s.tables.map Prod.fst, ¬ p ≤ k) →
      estimate_wait_time s p = waitingCount s p * s.wait_time_per_table) ∧
    (∀ c, c ∈ s.tables.map Prod.fst → p ≤ c →
      (∀ k ∈ s.tables.map Prod.fst, p ≤ k → c ≤ k) →
      (lookupTable s.tables c = 0 →
        estimate_wait_time s p = waitingCount s p * s.wait_time_per_table) ∧
      (lookupTable s.tables c ≠ 0 →
        estimate_wait_time s p
          = max 0 ((waitingCount s p - lookupTable s.tables c) * s.wait_time_per_table))) := by
  have hcount : 0 ≤ waitingCount s p := Int.natCast_nonneg _
  have hprod : 0 ≤ waitingCount s p * s.wait_time_per_table := mul_nonneg hcount ht
  refine ⟨le_max_left 0 _, ?_, ?_⟩
  · intro hnone
    have hf := (find_suitable_none_iff s p).2 hnone
    unfold estimate_wait_time
    rw [hf]
    exact max_eq_right hprod
  · intro c hm hge hmin
    have hf := find_suitable_min_eq s p c hm hge hmin
    have hc0 : c ≠ 0 := ne_of_gt (hpos c hm)
    constructor
    · intro hz
      have hcond : ¬ (c ≠ 0 ∧ lookupTable s.tables c ≠ 0) := by
        rintro ⟨_, hne⟩; exact hne hz
      simp only [estimate_wait_time, hf]
      rw [if_neg hcond]
      exact max_eq_right hprod
    · intro hnz
      simp only [estimate_wait_time, hf]
      rw [if_pos ⟨hc0, hnz⟩]

/-- C6 witness: on the fresh engine the estimate for a party of 3 is
non-negative (it is `max 0 ((0 - 3) * 30) = 0`). -/
theorem estimateWaitTime_formula_witness :
    0 ≤ estimate_wait_time RestaurantWaitlist.init 3 ∧
    estimate_wait_time RestaurantWaitlist.init 3 = 0 := by
  refine ⟨(estimateWaitTime_formula RestaurantWaitlist.init 3 (by decide) (by decide)).1, ?_⟩
  have h := ((estimateWaitTime_formula RestaurantWaitlist.init 3 (by decide) (by decide)).2.2
    4 (by decide) (by decide) (by decide)).2 (by decide)
  rw [h]
  decide
